import Mathlib

/-!
Verification of the deadlock-simulator engine (`app/main.py`) against its
specification.  The Python engine is shallowly embedded: Python dicts become
insertion-ordered association lists (`List (Nat × _)`), uuid identities become
a `Nat` counter (only uniqueness matters), Python `int` becomes `Int`, and
each method of `DeadlockSimulator` becomes a pure function on a `Sim` state.
-/

set_option maxRecDepth 10000

/-! ## Association lists with Python-dict semantics
`lookupA` = `d[k]` / `k in d`; `setA` = `d[k] = v` (updates in place keeping
the key's position, appends at the end for a new key, as Python dicts do);
`eraseA` = `del d[k]`; `sumVals` = `sum(d.values(), 0)`. -/

def lookupA {α : Type} : List (Nat × α) → Nat → Option α
  | [], _ => none
  | (k, v) :: rest, key => if k = key then some v else lookupA rest key

def setA {α : Type} : List (Nat × α) → Nat → α → List (Nat × α)
  | [], key, val => [(key, val)]
  | (k, v) :: rest, key, val =>
      if k = key then (k, val) :: rest else (k, v) :: setA rest key val

def eraseA {α : Type} : List (Nat × α) → Nat → List (Nat × α)
  | [], _ => []
  | (k, v) :: rest, key => if k = key then rest else (k, v) :: eraseA rest key

/-- Update the value stored at a key in place (models mutating an object held
in a Python dict; a missing key is a no-op, where Python would raise
`KeyError` — the operations below only use it on keys they have looked up). -/
def updateA {α : Type} (l : List (Nat × α)) (key : Nat) (f : α → α) : List (Nat × α) :=
  l.map (fun p => if p.1 = key then (p.1, f p.2) else p)

def sumVals : List (Nat × Int) → Int
  | [] => 0
  | (_, v) :: rest => v + sumVals rest

/-- `d[k] += v` if the key is present, `d[k] = v` otherwise — the
`if pid in resource.allocated: ... else: ...` pattern of the source. -/
def addEntry (l : List (Nat × Int)) (k : Nat) (v : Int) : List (Nat × Int) :=
  match lookupA l k with
  | some old => setA l k (old + v)
  | none => setA l k v

/-! ## Data model (`Resource`, `Process`, `DeadlockSimulator`) -/

structure Process where
  name : String
  allocated_resources : List (Nat × Int)
  requested_resources : List (Nat × Int)
  max_resources : List (Nat × Int)
  status : String
deriving Repr, DecidableEq

structure Resource where
  name : String
  units : Int
  allocated : List (Nat × Int)
  requested : List (Nat × Int)
deriving Repr, DecidableEq

structure Sim where
  processes : List (Nat × Process)
  resources : List (Nat × Resource)
  allocation_graph : List (Nat × List (Nat × Int))
  request_graph : List (Nat × List (Nat × Int))
  nextId : Nat
deriving Repr, DecidableEq

def initSim : Sim := ⟨[], [], [], [], 0⟩

/-! ## Entity creation -/

def create_process (s : Sim) (name : String) : Sim × Nat :=
  let pid := s.nextId
  ({ s with
      processes := s.processes ++ [(pid, ⟨name, [], [], [], "active"⟩)],
      allocation_graph := s.allocation_graph ++ [(pid, [])],
      request_graph := s.request_graph ++ [(pid, [])],
      nextId := pid + 1 }, pid)

/-- `create_resource` registers the resource unconditionally: the source has
no validation of `units` whatsoever. -/
def create_resource (s : Sim) (name : String) (units : Int) : Sim × Nat :=
  let rid := s.nextId
  ({ s with
      resources := s.resources ++ [(rid, ⟨name, units, [], []⟩)],
      nextId := rid + 1 }, rid)

/-! ## request_resource -/

/-- Record a request in all three request-side structures
(`resource.requested[pid] = units`, `process.requested_resources[rid] = units`,
`request_graph[pid][rid] = units`). -/
def recordRequest (s : Sim) (pid rid : Nat) (units : Int) : Sim :=
  { s with
    resources := updateA s.resources rid
      (fun r => { r with requested := setA r.requested pid units }),
    processes := updateA s.processes pid
      (fun p => { p with requested_resources := setA p.requested_resources rid units }),
    request_graph := updateA s.request_graph pid (fun g => setA g rid units) }

/-- Grant `units` in all three allocation-side structures.  The per-resource
and per-process views are incremented (`+=` when the key exists), but the
`allocation_graph` entry is overwritten (`= units`), exactly as in the
source. -/
def grantAlloc (s : Sim) (pid rid : Nat) (units : Int) : Sim :=
  { s with
    resources := updateA s.resources rid
      (fun r => { r with allocated := addEntry r.allocated pid units }),
    processes := updateA s.processes pid
      (fun p => { p with allocated_resources := addEntry p.allocated_resources rid units }),
    allocation_graph := updateA s.allocation_graph pid (fun g => setA g rid units) }

/-- Delete the request entry from all three request-side structures. -/
def clearRequest (s : Sim) (pid rid : Nat) : Sim :=
  { s with
    resources := updateA s.resources rid
      (fun r => { r with requested := eraseA r.requested pid }),
    processes := updateA s.processes pid
      (fun p => { p with requested_resources := eraseA p.requested_resources rid }),
    request_graph := updateA s.request_graph pid (fun g => eraseA g rid) }

/-- `process.status = st`. -/
def setStatus (s : Sim) (pid : Nat) (st : String) : Sim :=
  { s with processes := updateA s.processes pid (fun p => { p with status := st }) }

def request_resource (s : Sim) (pid rid : Nat) (units : Int) : Option (Sim × Bool) :=
  match lookupA s.processes pid, lookupA s.resources rid with
  | none, _ => none
  | some _, none => none
  | some _, some resource =>
    let allocated_units := sumVals resource.allocated
    let available_units := resource.units - allocated_units
    -- record the request unconditionally, before evaluating capacity
    let s1 := recordRequest s pid rid units
    if units ≤ available_units then
      -- grant immediately, then clear the just-recorded request
      some (clearRequest (grantAlloc s1 pid rid units) pid rid, true)
    else
      some (setStatus s1 pid "blocked", false)

/-! ## Request-satisfaction scan (`_try_satisfy_waiting_requests`) -/

/-- One grant inside the scan loop: allocation updated in all three views
(again with the overwrite in `allocation_graph`), and the process status set
to `"active"` unconditionally. -/
def scanGrant (rid pid : Nat) (req : Int) (s : Sim) : Sim :=
  setStatus (grantAlloc s pid rid req) pid "active"

/-- The `for pid, requested_units in resource.requested.items()` loop:
iterates the pending entries in insertion order, grants each entry whose
units fit in the remaining availability, collects granted pids in
`satisfied`, and breaks when availability reaches zero after a grant. -/
def scanLoop (rid : Nat) : Sim → List (Nat × Int) → Int → List Nat → Sim × List Nat
  | s, [], _, sat => (s, sat)
  | s, (pid, req) :: rest, avail, sat =>
    if req ≤ avail then
      let s1 := scanGrant rid pid req s
      let avail1 := avail - req
      let sat1 := sat ++ [pid]
      if avail1 = 0 then (s1, sat1) else scanLoop rid s1 rest avail1 sat1
    else scanLoop rid s rest avail sat

/-- The post-loop removal of a satisfied request from all three
request-side structures. -/
def removeSatisfied (rid : Nat) (s : Sim) (pid : Nat) : Sim :=
  clearRequest s pid rid

def try_satisfy_waiting_requests (s : Sim) (rid : Nat) : Sim :=
  match lookupA s.resources rid with
  | none => s
  | some resource =>
    let available_units := resource.units - sumVals resource.allocated
    if available_units = 0 then s
    else
      let r1 := scanLoop rid s resource.requested available_units []
      r1.2.foldl (removeSatisfied rid) r1.1

/-! ## release_resource -/

/-- Remove the allocation entry entirely, from all three structures (the
`units is None or units >= held` branch of `release_resource`; the source
guards the `allocation_graph` deletion with a membership test, which the
total `eraseA` subsumes). -/
def dropAlloc (s : Sim) (pid rid : Nat) : Sim :=
  { s with
    resources := updateA s.resources rid
      (fun r => { r with allocated := eraseA r.allocated pid }),
    processes := updateA s.processes pid
      (fun p => { p with allocated_resources := eraseA p.allocated_resources rid }),
    allocation_graph := updateA s.allocation_graph pid (fun g => eraseA g rid) }

/-- Decrement the held amount by `u` in all three structures, leaving
`held - u` (the partial-release branch; `process.allocated_resources[rid]`
is decremented through its own lookup, as `-=` does in the source). -/
def decAlloc (s : Sim) (pid rid : Nat) (held u : Int) : Sim :=
  { s with
    resources := updateA s.resources rid
      (fun r => { r with allocated := setA r.allocated pid (held - u) }),
    processes := updateA s.processes pid
      (fun p => { p with allocated_resources :=
        (match lookupA p.allocated_resources rid with
        | some h2 => setA p.allocated_resources rid (h2 - u)
        | none => p.allocated_resources) }),
    allocation_graph := updateA s.allocation_graph pid (fun g => setA g rid (held - u)) }

def release_resource (s : Sim) (pid rid : Nat) (units : Option Int) : Option (Sim × Bool) :=
  match lookupA s.processes pid, lookupA s.resources rid with
  | none, _ => none
  | some _, none => none
  | some _, some resource =>
    match lookupA resource.allocated pid with
    | none => some (s, false)   -- nothing to release: early return BEFORE the scan
    | some held =>
      let s1 : Sim :=
        match units with
        | none => dropAlloc s pid rid
        | some u => if held ≤ u then dropAlloc s pid rid else decAlloc s pid rid held u
      some (try_satisfy_waiting_requests s1 rid, true)

/-- Counts, along the control path of `release_resource`, how many times the
request-satisfaction scan is invoked: the single call site is reached only
after the id checks succeed and only when the process holds some of the
resource (the `process_id not in resource.allocated` case returns first). -/
def release_scan_calls (s : Sim) (pid rid : Nat) (units : Option Int) : Nat :=
  match lookupA s.processes pid, lookupA s.resources rid with
  | none, _ => 0
  | some _, none => 0
  | some _, some resource =>
    match lookupA resource.allocated pid, units with
    | none, _ => 0
    | some _, _ => 1

/-! ## Deadlock detection -/

/-- `wait_for_graph[p].add(x)`: a Python `set` add, modelled as
append-if-absent (one concrete resolution of the set's unspecified order). -/
def addNbr (l : List Nat) (x : Nat) : List Nat := if x ∈ l then l else l ++ [x]

/-- Edges out of one waiting process: every other process holding any units
of any resource the process has a pending request on. -/
def edgesFor (s : Sim) (pid : Nat) (prequests : List (Nat × Int)) : List Nat :=
  prequests.foldl (fun acc rq =>
    match lookupA s.resources rq.1 with
    | none => acc
    | some r => r.allocated.foldl
        (fun acc2 e => if e.1 ≠ pid then addNbr acc2 e.1 else acc2) acc) []

def waitForGraph (s : Sim) : List (Nat × List Nat) :=
  s.request_graph.foldl (fun g pr =>
    if pr.2 = [] then g
    else g ++ [(pr.1, edgesFor s pr.1 pr.2)]) []

structure DfsS where
  visited : List Nat
  recStack : List Nat
  deadlocked : List Nat
deriving Repr, DecidableEq

/-- The `for neighbor in graph[node]` loop of the `dfs` closure of
`_find_cycles`, parameterized by the recursive call `rec` (the dfs at one
fuel level less).  An unvisited neighbor is recursed into; a visited
neighbor still on the recursion stack is a back-edge: the current node is
marked deadlocked and `True` is returned, and a caller whose recursive call
returned `True` likewise marks itself and returns `True`. -/
def dfsNbrs (g : List (Nat × List Nat)) (rec : Nat → DfsS → DfsS × Bool) (node : Nat) :
    List Nat → DfsS → DfsS × Bool
  | [], S => (⟨S.visited, S.recStack.erase node, S.deadlocked⟩, false)
  | x :: rest, S =>
    if x ∈ S.visited then
      if x ∈ S.recStack then (⟨S.visited, S.recStack, node :: S.deadlocked⟩, true)
      else dfsNbrs g rec node rest S
    else
      let r := rec x S
      if r.2 then (⟨r.1.visited, r.1.recStack, node :: r.1.deadlocked⟩, true)
      else dfsNbrs g rec node rest r.1

/-- The recursive `dfs` closure of `_find_cycles`.  Note the faithful quirk:
`rec_stack.remove(node)` is executed only on the `return False` paths, so a
node whose call returned `True` stays on the recursion stack forever.  The
fuel argument only bounds recursion depth; callers supply enough fuel for it
never to run out (each level of real recursion visits a previously
unvisited graph key, so `g.length + 1` always suffices). -/
def dfs (g : List (Nat × List Nat)) : Nat → Nat → DfsS → DfsS × Bool
  | 0, node, S =>
    let S1 : DfsS := ⟨node :: S.visited, node :: S.recStack, S.deadlocked⟩
    match lookupA g node with
    | none => (⟨S1.visited, S1.recStack.erase node, S1.deadlocked⟩, false)
    | some _ => (S1, false)
  | fuel + 1, node, S =>
    let S1 : DfsS := ⟨node :: S.visited, node :: S.recStack, S.deadlocked⟩
    match lookupA g node with
    | none => (⟨S1.visited, S1.recStack.erase node, S1.deadlocked⟩, false)
    | some nbrs => dfsNbrs g (fun x T => dfs g fuel x T) node nbrs S1

def find_cycles (g : List (Nat × List Nat)) : List Nat :=
  (g.foldl (fun S pr =>
    if pr.1 ∈ S.visited then S
    else (dfs g (g.length + 1) pr.1 S).1) ⟨[], [], []⟩).deadlocked

structure DetectResult where
  deadlock_detected : Bool
  deadlocked_processes : List (Nat × String)
deriving Repr, DecidableEq

def detect_deadlock (s : Sim) : DetectResult :=
  let dead := find_cycles (waitForGraph s)
  { deadlock_detected := decide (0 < dead.length),
    deadlocked_processes := dead.map (fun pid =>
      (pid, match lookupA s.processes pid with | some p => p.name | none => "")) }

/-! ## reset, traces -/

def resetSim (s : Sim) : Sim :=
  { s with processes := [], resources := [], allocation_graph := [], request_graph := [] }

inductive Op where
  | createProcess (name : String)
  | createResource (name : String) (units : Int)
  | request (pid rid : Nat) (units : Int)
  | release (pid rid : Nat) (units : Option Int)
  | detect
  | reset
deriving Repr, DecidableEq

/-- One engine call.  A `ValueError` (unknown id) propagates before any
mutation, so the state is unchanged; `detect` is a pure read. -/
def step (s : Sim) (op : Op) : Sim :=
  match op with
  | .createProcess n => (create_process s n).1
  | .createResource n u => (create_resource s n u).1
  | .request p r u =>
    match request_resource s p r u with
    | some pr => pr.1
    | none => s
  | .release p r u =>
    match release_resource s p r u with
    | some pr => pr.1
    | none => s
  | .detect => s
  | .reset => resetSim s

def run (ops : List Op) : Sim := ops.foldl step initSim

/-! ## Projections of the three bookkeeping views -/

/-- Allocated units of `pid` on `rid` as stored inside the Resource. -/
def resView (s : Sim) (rid pid : Nat) : Option Int :=
  (lookupA s.resources rid).bind (fun r => lookupA r.allocated pid)

/-- Allocated units of `pid` on `rid` as stored inside the Process. -/
def procView (s : Sim) (rid pid : Nat) : Option Int :=
  (lookupA s.processes pid).bind (fun p => lookupA p.allocated_resources rid)

/-- Allocated units of `pid` on `rid` as stored in the global table. -/
def graphView (s : Sim) (rid pid : Nat) : Option Int :=
  (lookupA s.allocation_graph pid).bind (fun g => lookupA g rid)

/-- Requested units of `pid` on `rid` as stored inside the Resource. -/
def resReqView (s : Sim) (rid pid : Nat) : Option Int :=
  (lookupA s.resources rid).bind (fun r => lookupA r.requested pid)

/-- Requested units of `pid` on `rid` as stored inside the Process. -/
def procReqView (s : Sim) (rid pid : Nat) : Option Int :=
  (lookupA s.processes pid).bind (fun p => lookupA p.requested_resources rid)

/-- Requested units of `pid` on `rid` as stored in the global table. -/
def graphReqView (s : Sim) (rid pid : Nat) : Option Int :=
  (lookupA s.request_graph pid).bind (fun g => lookupA g rid)

/-- Status of a process. -/
def statusOf (s : Sim) (pid : Nat) : Option String :=
  (lookupA s.processes pid).map Process.status

/-! ## Concrete scenarios (spec §8) -/

/-- Deadlock round-trip: P1=0, P2=1, R1=2, R2=3; each resource 1 unit. -/
def cycleOps : List Op :=
  [Op.createProcess "P1", Op.createProcess "P2",
   Op.createResource "R1" 1, Op.createResource "R2" 1,
   Op.request 0 2 1, Op.request 1 3 1, Op.request 0 3 1, Op.request 1 2 1]

/-- Wait-chain propagation: the cycle scenario plus P3=4 requesting R1
(held by P1).  P3 is created last, so the DFS explores the whole P1-P2
cycle before ever reaching P3. -/
def chainOps : List Op := cycleOps ++ [Op.createProcess "P3", Op.request 4 2 1]

/-- A process (id 1) granted 1 unit of a 2-unit resource (id 0) twice. -/
def regrantOps : List Op :=
  [Op.createResource "R" 2, Op.createProcess "P", Op.request 1 0 1, Op.request 1 0 1]

/-- A process (id 1) granted the single unit of resource 0, then issuing a
further request for it that cannot be granted. -/
def holdAndAskOps : List Op :=
  [Op.createResource "R" 1, Op.createProcess "P", Op.request 1 0 1, Op.request 1 0 1]

/-- Scan-order: B=1 holds the single unit of resource 0; A=2 then D=3 queue
1-unit requests; B releases. -/
def scanOrderOps : List Op :=
  [Op.createResource "R" 1, Op.createProcess "B", Op.createProcess "A", Op.createProcess "D",
   Op.request 1 0 1, Op.request 2 0 1, Op.request 3 0 1, Op.release 1 0 none]

/-- P=4 is blocked on resource 0 (held by Q=2) and on resource 1 (held by
Q2=3); then Q2 releases resource 1, so the scan grants P's pending request
on resource 1 while P is still waiting on resource 0. -/
def unblockOps : List Op :=
  [Op.createResource "R1" 1, Op.createResource "R2" 1,
   Op.createProcess "Q", Op.createProcess "Q2", Op.createProcess "P",
   Op.request 2 0 1, Op.request 3 1 1, Op.request 4 0 1, Op.request 4 1 1,
   Op.release 3 1 none]

/-- Q=2 holds the unit of resource 0, P=1 holds none of it. -/
def holdsNoneOps : List Op :=
  [Op.createResource "R" 1, Op.createProcess "P", Op.createProcess "Q", Op.request 2 0 1]

/-! ## Association list lemmas -/

theorem lookupA_setA_self {α : Type} (l : List (Nat × α)) (k : Nat) (v : α) :
    lookupA (setA l k v) k = some v := by
  induction l with
  | nil => simp [setA, lookupA]
  | cons h t ih =>
    obtain ⟨k', v'⟩ := h
    by_cases hk : k' = k
    · simp [setA, hk, lookupA]
    · simp [setA, hk, lookupA, ih]

theorem lookupA_setA_ne {α : Type} (l : List (Nat × α)) (k k' : Nat) (v : α)
    (h : k' ≠ k) : lookupA (setA l k v) k' = lookupA l k' := by
  induction l with
  | nil => simp [setA, lookupA, Ne.symm h]
  | cons hd t ih =>
    obtain ⟨k0, v0⟩ := hd
    by_cases hk : k0 = k
    · subst hk
      simp [setA, lookupA, Ne.symm h]
    · simp only [setA, if_neg hk, lookupA]
      by_cases hk2 : k0 = k'
      · simp [hk2]
      · simp [hk2, ih]

theorem updateA_cons {α : Type} (k0 : Nat) (v0 : α) (t : List (Nat × α)) (k : Nat)
    (f : α → α) :
    updateA ((k0, v0) :: t) k f =
      (if k0 = k then (k0, f v0) else (k0, v0)) :: updateA t k f := by
  by_cases hk : k0 = k
  · simp [updateA, hk]
  · simp [updateA, hk]

theorem lookupA_updateA_self {α : Type} (l : List (Nat × α)) (k : Nat) (f : α → α) :
    lookupA (updateA l k f) k = (lookupA l k).map f := by
  induction l with
  | nil => simp [updateA, lookupA]
  | cons hd t ih =>
    obtain ⟨k0, v0⟩ := hd
    rw [updateA_cons]
    by_cases hk : k0 = k
    · subst hk
      rw [if_pos rfl]
      simp [lookupA]
    · rw [if_neg hk]
      simp [lookupA, hk, ih]

theorem lookupA_updateA_ne {α : Type} (l : List (Nat × α)) (k k' : Nat) (f : α → α)
    (h : k' ≠ k) : lookupA (updateA l k f) k' = lookupA l k' := by
  induction l with
  | nil => simp [updateA, lookupA]
  | cons hd t ih =>
    obtain ⟨k0, v0⟩ := hd
    rw [updateA_cons]
    by_cases hk : k0 = k
    · subst hk
      rw [if_pos rfl]
      simp [lookupA, Ne.symm h, ih]
    · rw [if_neg hk]
      by_cases hk2 : k0 = k'
      · simp [lookupA, hk2]
      · simp [lookupA, hk2, ih]

theorem lookupA_eraseA_ne {α : Type} (l : List (Nat × α)) (k k' : Nat)
    (h : k' ≠ k) : lookupA (eraseA l k) k' = lookupA l k' := by
  induction l with
  | nil => simp [eraseA, lookupA]
  | cons hd t ih =>
    obtain ⟨k0, v0⟩ := hd
    by_cases hk : k0 = k
    · subst hk
      simp [eraseA, lookupA, Ne.symm h]
    · simp only [eraseA, if_neg hk, lookupA]
      by_cases hk2 : k0 = k'
      · simp [hk2]
      · simp [hk2, ih]

theorem lookupA_eq_none_of_not_mem {α : Type} (l : List (Nat × α)) (k : Nat)
    (h : k ∉ l.map Prod.fst) : lookupA l k = none := by
  induction l with
  | nil => simp [lookupA]
  | cons hd t ih =>
    obtain ⟨k0, v0⟩ := hd
    simp only [List.map, List.mem_cons, not_or] at h
    have hne : k0 ≠ k := fun e => h.1 e.symm
    simp [lookupA, hne, ih h.2]

theorem lookupA_eraseA_self {α : Type} (l : List (Nat × α)) (k : Nat)
    (h : (l.map Prod.fst).Nodup) : lookupA (eraseA l k) k = none := by
  induction l with
  | nil => simp [eraseA, lookupA]
  | cons hd t ih =>
    obtain ⟨k0, v0⟩ := hd
    simp only [List.map, List.nodup_cons] at h
    by_cases hk : k0 = k
    · subst hk
      simp only [eraseA, if_pos rfl]
      exact lookupA_eq_none_of_not_mem t k0 h.1
    · simp [eraseA, hk, lookupA, ih h.2]

theorem mem_keys_setA {α : Type} (l : List (Nat × α)) (k x : Nat) (v : α)
    (h : x ∈ (setA l k v).map Prod.fst) : x ∈ l.map Prod.fst ∨ x = k := by
  induction l with
  | nil =>
    simp only [setA, List.map, List.mem_singleton] at h
    exact Or.inr h
  | cons hd t ih =>
    obtain ⟨k0, v0⟩ := hd
    by_cases hk : k0 = k
    · subst hk
      simp only [setA, if_pos rfl, List.map, List.mem_cons] at h
      simp only [List.map, List.mem_cons]
      tauto
    · simp only [setA, if_neg hk, List.map, List.mem_cons] at h
      simp only [List.map, List.mem_cons]
      rcases h with h | h
      · exact Or.inl (Or.inl h)
      · rcases ih h with h2 | h2
        · exact Or.inl (Or.inr h2)
        · exact Or.inr h2

theorem nodup_keys_setA {α : Type} (l : List (Nat × α)) (k : Nat) (v : α)
    (h : (l.map Prod.fst).Nodup) : ((setA l k v).map Prod.fst).Nodup := by
  induction l with
  | nil => simp [setA]
  | cons hd t ih =>
    obtain ⟨k0, v0⟩ := hd
    simp only [List.map, List.nodup_cons] at h
    by_cases hk : k0 = k
    · subst hk
      simp only [setA, if_pos rfl, List.map, List.nodup_cons]
      exact ⟨h.1, h.2⟩
    · simp only [setA, if_neg hk, List.map, List.nodup_cons]
      refine ⟨fun hmem => ?_, ih h.2⟩
      rcases mem_keys_setA t k k0 v hmem with hin | heq
      · exact h.1 hin
      · exact hk heq

theorem setA_append_middle {α : Type} (l1 l2 : List (Nat × α)) (k : Nat) (v0 v : α)
    (h : k ∉ l1.map Prod.fst) :
    setA (l1 ++ (k, v0) :: l2) k v = l1 ++ (k, v) :: l2 := by
  induction l1 with
  | nil => simp [setA]
  | cons hd t ih =>
    obtain ⟨k0, w⟩ := hd
    simp only [List.map, List.mem_cons, not_or] at h
    have hne : k0 ≠ k := fun e => h.1 e.symm
    simp [setA, hne, ih h.2]

/-- The request-satisfaction policy of spec section 4.2, written exactly as
the spec words it: walk the pending entries in insertion order, grant in
full each entry whose units fit within the remaining availability, skip
oversized entries and keep scanning, and stop only when availability
reaches zero or the queue is exhausted.  Returns the granted pids in grant
order. -/
def specGrant : Int → List (Nat × Int) → List Nat
  | _, [] => []
  | avail, (pid, u) :: rest =>
    if avail = 0 then []
    else if u ≤ avail then pid :: specGrant (avail - u) rest
    else specGrant avail rest

theorem specGrant_zero (l : List (Nat × Int)) : specGrant 0 l = [] := by
  cases l with
  | nil => rfl
  | cons hd t =>
    obtain ⟨p, u⟩ := hd
    simp [specGrant]

/-- C2 (code bug): after a process holding 1 unit of a 2-unit resource is
granted 1 further unit of the same resource, the per-resource and
per-process views hold 2 units but the global `allocation_graph` holds 1:
the source overwrites the graph entry instead of incrementing it, so the
three views do not agree. -/
theorem allocation_views_disagree_after_regrant :
    resView (run regrantOps) 0 1 = some 2 ∧
    procView (run regrantOps) 0 1 = some 2 ∧
    graphView (run regrantOps) 0 1 = some 1 ∧
    graphView (run regrantOps) 0 1 ≠ resView (run regrantOps) 0 1 := by decide

/-- C3 (counterexample): a process holding the single unit of a resource
that issues a further 1-unit request (which cannot be granted) ends with
the resource's `allocated` and `requested` maps both holding a nonzero
entry for it, contradicting the claimed invariant. -/
theorem holder_rerequest_both_nonzero_cex :
    resView (run holdAndAskOps) 0 1 = some 1 ∧
    resReqView (run holdAndAskOps) 0 1 = some 1 := by decide

/-- C3 (amended): granting is all-or-nothing for a process that does not
already hold the resource: whatever `request_resource` returns, such a
process never ends up with nonzero entries in both the resource's
`allocated` and `requested` maps — a granted request deletes its pending
entry, an ungranted one leaves `allocated` untouched. -/
theorem grant_is_all_or_nothing
    (s s' : Sim) (pid rid : Nat) (u : Int) (b : Bool) (res : Resource)
    (hres : lookupA s.resources rid = some res)
    (hnodup : (res.requested.map Prod.fst).Nodup)
    (hfresh : lookupA res.allocated pid = none)
    (hreq : request_resource s pid rid u = some (s', b)) :
    resView s' rid pid = none ∨ resReqView s' rid pid = none := by
  cases hp : lookupA s.processes pid with
  | none =>
    rw [request_resource, hp] at hreq
    simp at hreq
  | some proc =>
    rw [request_resource, hp, hres] at hreq
    simp only [] at hreq
    by_cases hle : u ≤ res.units - sumVals res.allocated
    · rw [if_pos hle] at hreq
      simp only [Option.some.injEq, Prod.mk.injEq] at hreq
      obtain ⟨hs', -⟩ := hreq
      subst hs'
      right
      simp only [resReqView, clearRequest, grantAlloc, recordRequest,
        lookupA_updateA_self, hres, Option.map_some', Option.some_bind]
      exact lookupA_eraseA_self _ _ (nodup_keys_setA _ _ _ hnodup)
    · rw [if_neg hle] at hreq
      simp only [Option.some.injEq, Prod.mk.injEq] at hreq
      obtain ⟨hs', -⟩ := hreq
      subst hs'
      left
      simp only [resView, setStatus, recordRequest, lookupA_updateA_self, hres,
        Option.map_some', Option.some_bind]
      exact hfresh

/-- C4 (counterexample): `create_resource` performs no validation at all —
called with `totalUnits = 0` or `-1` it still registers the resource,
refuting the claim that such calls are rejected and register nothing. -/
theorem create_resource_no_validation_cex :
    (create_resource initSim "R" 0).1.resources = [(0, ⟨"R", 0, [], []⟩)] ∧
    (create_resource initSim "R" (-1)).1.resources = [(0, ⟨"R", -1, [], []⟩)] := by decide

/-- C4 (amended): `create_resource` has no failure mode whatsoever: for
every `totalUnits` (including values < 1) it appends a resource under the
fresh id `nextId`, with empty `allocated` and `requested` maps, and touches
nothing else. -/
theorem create_resource_always_registers (s : Sim) (name : String) (units : Int) :
    (create_resource s name units).1.resources
        = s.resources ++ [(s.nextId, ⟨name, units, [], []⟩)] ∧
    (create_resource s name units).2 = s.nextId ∧
    (create_resource s name units).1.processes = s.processes ∧
    (create_resource s name units).1.nextId = s.nextId + 1 :=
  ⟨rfl, rfl, rfl, rfl⟩

/-- C5 (counterexample): a release by a process holding none of the
resource returns `false` without ever invoking the request-satisfaction
scan (the source returns before the scan call site), refuting the claim
that every release on known ids triggers the scan exactly once. -/
theorem release_no_holding_skips_scan_cex :
    release_scan_calls (run holdsNoneOps) 1 0 none = 0 ∧
    release_resource (run holdsNoneOps) 1 0 none = some (run holdsNoneOps, false) := by decide

/-- C5 (amended): on known ids, `release_resource` invokes the scan exactly
once when the process holds some of the resource (even when no units are
actually freed), and zero times — returning `false` with the state
unchanged — when it holds none. -/
theorem release_scan_called_once_iff_holding
    (s : Sim) (pid rid : Nat) (u : Option Int) (proc : Process) (res : Resource)
    (hp : lookupA s.processes pid = some proc)
    (hr : lookupA s.resources rid = some res) :
    (lookupA res.allocated pid ≠ none → release_scan_calls s pid rid u = 1) ∧
    (lookupA res.allocated pid = none →
      release_scan_calls s pid rid u = 0 ∧
      release_resource s pid rid u = some (s, false)) := by
  constructor
  · intro hal
    cases hx : lookupA res.allocated pid with
    | none => exact absurd hx hal
    | some held => simp [release_scan_calls, hp, hr, hx]
  · intro hal
    refine ⟨by simp [release_scan_calls, hp, hr, hal], ?_⟩
    simp [release_resource, hp, hr, hal]

/-- C5 witness. -/
theorem release_scan_called_once_iff_holding_witness :
    release_scan_calls (run holdsNoneOps) 2 0 none = 1 :=
  (release_scan_called_once_iff_holding (run holdsNoneOps) 2 0 none
    ⟨"Q", [(0, 1)], [], [], "active"⟩ ⟨"R", 1, [(2, 1)], []⟩
    (by decide) (by decide)).1 (by decide)

/-- C6 (counterexample): after the scan grants P's pending request on
resource 1, P's status is `"active"` even though P still has a pending
request on resource 0 — the claimed equivalence between `blocked` and
having an unsatisfied request fails. -/
theorem scan_unblocks_despite_pending_cex :
    statusOf (run unblockOps) 4 = some "active" ∧
    procReqView (run unblockOps) 0 4 = some 1 := by decide

/-- C6 (amended): a request that cannot be granted does set the process's
status to `"blocked"`; but the scan sets the status of any process it
grants to `"active"` unconditionally, even when that process still has a
pending request on another resource (shown on the concrete scenario). -/
theorem denied_request_blocks_scan_grant_activates :
    (∀ (s s' : Sim) (pid rid : Nat) (u : Int),
      request_resource s pid rid u = some (s', false) →
      statusOf s' pid = some "blocked") ∧
    (statusOf (run unblockOps) 4 = some "active" ∧
     procReqView (run unblockOps) 0 4 = some 1) := by
  refine ⟨?_, by decide, by decide⟩
  intro s s' pid rid u hreq
  cases hp : lookupA s.processes pid with
  | none =>
    rw [request_resource, hp] at hreq
    simp at hreq
  | some proc =>
    cases hr : lookupA s.resources rid with
    | none =>
      rw [request_resource, hp, hr] at hreq
      simp at hreq
    | some res =>
      rw [request_resource, hp, hr] at hreq
      simp only [] at hreq
      by_cases hle : u ≤ res.units - sumVals res.allocated
      · rw [if_pos hle] at hreq
        simp at hreq
      · rw [if_neg hle] at hreq
        simp only [Option.some.injEq, Prod.mk.injEq] at hreq
        obtain ⟨hs', -⟩ := hreq
        subst hs'
        simp [statusOf, setStatus, recordRequest, lookupA_updateA_self, hp]

/-- C6 witness. -/
theorem denied_request_blocks_scan_grant_activates_witness :
    statusOf (run holdAndAskOps) 1 = some "blocked" :=
  denied_request_blocks_scan_grant_activates.1
    (run [Op.createResource "R" 1, Op.createProcess "P", Op.request 1 0 1])
    (run holdAndAskOps) 1 0 1 (by decide)

/-- C7: the scan loop realizes exactly the insertion-order best-fit policy
of spec section 4.2 (`specGrant`): same grants, in queue order, skipping
oversized entries and stopping only at zero availability or queue
exhaustion; concretely, with one unit freed and 1-unit requests pending
from A (first) and D, the unit goes to A and D stays pending. -/
theorem scan_follows_insertion_order_policy :
    (∀ (s : Sim) (rid : Nat) (pending : List (Nat × Int)),
      ∀ (avail : Int) (sat : List Nat), avail ≠ 0 →
      (scanLoop rid s pending avail sat).2 = sat ++ specGrant avail pending) ∧
    resView (run scanOrderOps) 0 2 = some 1 ∧
    resReqView (run scanOrderOps) 0 2 = none ∧
    resReqView (run scanOrderOps) 0 3 = some 1 ∧
    statusOf (run scanOrderOps) 3 = some "blocked" := by
  refine ⟨?_, by decide, by decide, by decide, by decide⟩
  intro s rid pending
  induction pending generalizing s with
  | nil =>
    intro avail sat h
    simp [scanLoop, specGrant]
  | cons hd rest ih =>
    obtain ⟨pid, u⟩ := hd
    intro avail sat h
    by_cases hu : u ≤ avail
    · by_cases hz : avail - u = 0
      · simp only [scanLoop, if_pos hu, if_pos hz, specGrant, if_neg h, hz,
          specGrant_zero]
        simp
      · simp only [scanLoop, if_pos hu, if_neg hz, specGrant, if_neg h]
        rw [ih _ _ _ hz]
        simp
    · simp only [scanLoop, if_neg hu, specGrant, if_neg h]
      exact ih _ _ _ h

/-- C7 witness. -/
theorem scan_follows_insertion_order_policy_witness :
    (scanLoop 0 (run [Op.createResource "R" 1]) [(2, 1), (3, 1)] 1 []).2
      = [] ++ specGrant 1 [(2, 1), (3, 1)] :=
  scan_follows_insertion_order_policy.1 (run [Op.createResource "R" 1]) 0
    [(2, 1), (3, 1)] 1 [] (by decide)

/-- C8: the two-process circular-wait scenario is reported as a deadlock
with exactly P1 and P2 in the set, and in general the returned boolean is
true exactly when the reported set is non-empty. -/
theorem detect_cycle_roundtrip_and_flag :
    (detect_deadlock (run cycleOps)).deadlock_detected = true ∧
    (detect_deadlock (run cycleOps)).deadlocked_processes = [(0, "P1"), (1, "P2")] ∧
    ∀ s : Sim, (detect_deadlock s).deadlock_detected = true ↔
      (detect_deadlock s).deadlocked_processes ≠ [] := by
  refine ⟨by decide, by decide, fun s => ?_⟩
  simp [detect_deadlock, List.length_pos]

/-- C10: a further request by a process with a pending request on the same
resource overwrites the stored amount in all three request-side structures
(nothing is accumulated), and the entry keeps its original position in the
resource's scan queue. -/
theorem rerequest_overwrites_pending_in_place
    (s s' : Sim) (pid rid : Nat) (u u0 : Int) (res : Resource)
    (g0 l1 l2 : List (Nat × Int))
    (hres : lookupA s.resources rid = some res)
    (hsplit : res.requested = l1 ++ (pid, u0) :: l2)
    (hnotin : pid ∉ l1.map Prod.fst)
    (hg : lookupA s.request_graph pid = some g0)
    (hreq : request_resource s pid rid u = some (s', false)) :
    (lookupA s'.resources rid).map Resource.requested = some (l1 ++ (pid, u) :: l2) ∧
    procReqView s' rid pid = some u ∧
    graphReqView s' rid pid = some u := by
  cases hp : lookupA s.processes pid with
  | none =>
    rw [request_resource, hp] at hreq
    simp at hreq
  | some proc =>
    rw [request_resource, hp, hres] at hreq
    simp only [] at hreq
    by_cases hle : u ≤ res.units - sumVals res.allocated
    · rw [if_pos hle] at hreq
      simp at hreq
    · rw [if_neg hle] at hreq
      simp only [Option.some.injEq, Prod.mk.injEq] at hreq
      obtain ⟨hs', -⟩ := hreq
      subst hs'
      refine ⟨?_, ?_, ?_⟩
      · simp only [setStatus, recordRequest, lookupA_updateA_self, hres,
          Option.map_some']
        rw [hsplit, setA_append_middle _ _ _ _ _ hnotin]
      · simp only [procReqView, setStatus, recordRequest, lookupA_updateA_self,
          hp, Option.map_some', Option.some_bind]
        exact lookupA_setA_self _ _ _
      · simp only [graphReqView, setStatus, recordRequest, lookupA_updateA_self,
          hg, Option.map_some', Option.some_bind]
        exact lookupA_setA_self _ _ _

/-- C10 witness. -/
theorem rerequest_overwrites_pending_in_place_witness :
    (lookupA (run (holdAndAskOps ++ [Op.request 1 0 5])).resources 0).map
        Resource.requested = some ([] ++ (1, 5) :: []) :=
  (rerequest_overwrites_pending_in_place (run holdAndAskOps)
    (run (holdAndAskOps ++ [Op.request 1 0 5])) 1 0 5 1
    ⟨"R", 1, [(1, 1)], [(1, 1)]⟩ [(0, 1)] [] []
    (by decide) (by decide) (by decide) (by decide) (by decide)).1

/-- C3 witness. -/
theorem grant_is_all_or_nothing_witness :
    resView (run (holdsNoneOps ++ [Op.request 1 0 1])) 0 1 = none ∨
    resReqView (run (holdsNoneOps ++ [Op.request 1 0 1])) 0 1 = none :=
  grant_is_all_or_nothing (run holdsNoneOps)
    (run (holdsNoneOps ++ [Op.request 1 0 1])) 1 0 1 false
    ⟨"R", 1, [(2, 1)], []⟩ (by decide) (by decide) (by decide) (by decide)

/-! ## Wait-for graph reachability and the DFS invariants (for C1) -/

/-- `Edge g a b`: the adjacency list of `a` in `g` contains `b`. -/
def Edge (g : List (Nat × List Nat)) (a b : Nat) : Prop :=
  ∃ l, lookupA g a = some l ∧ b ∈ l

/-- `n`'s wait chain transitively reaches a cycle of `g` (including the case
that `n` itself lies on a cycle). -/
def ReachesCycle (g : List (Nat × List Nat)) (n : Nat) : Prop :=
  ∃ c, Relation.ReflTransGen (Edge g) n c ∧ Relation.TransGen (Edge g) c c

theorem lookupA_mem_keys {α : Type} {g : List (Nat × α)} {n : Nat} {l : α}
    (h : lookupA g n = some l) : n ∈ g.map Prod.fst := by
  induction g with
  | nil => simp [lookupA] at h
  | cons hd t ih =>
    obtain ⟨k, v⟩ := hd
    by_cases hk : k = n
    · simp [hk]
    · rw [lookupA, if_neg hk] at h
      simp [ih h]

theorem reaches_step {g : List (Nat × List Nat)} {n : Nat} (h : ReachesCycle g n) :
    ∃ y, Edge g n y ∧ ReachesCycle g y := by
  obtain ⟨c, hrc, hcc⟩ := h
  rcases Relation.ReflTransGen.cases_head hrc with heq | ⟨m, hnm, hmc⟩
  · subst heq
    obtain ⟨y, hny, hyn⟩ := Relation.TransGen.head'_iff.mp hcc
    exact ⟨y, hny, ⟨n, hyn, hcc⟩⟩
  · exact ⟨m, hnm, ⟨c, hmc, hcc⟩⟩

theorem not_reaches_of_no_edge {g : List (Nat × List Nat)} {node : Nat}
    (h : lookupA g node = none) : ¬ ReachesCycle g node := by
  intro hr
  obtain ⟨y, ⟨l, hl, -⟩, -⟩ := reaches_step hr
  rw [h] at hl
  cases hl

theorem not_reaches_of_successors {g : List (Nat × List Nat)} {node : Nat}
    {nbrs : List Nat} (hlook : lookupA g node = some nbrs)
    (h : ∀ y ∈ nbrs, ¬ ReachesCycle g y) : ¬ ReachesCycle g node := by
  intro hr
  obtain ⟨y, ⟨l, hl, hyl⟩, hy⟩ := reaches_step hr
  rw [hlook] at hl
  cases hl
  exact h y hyl hy

/-- Number of graph keys not yet visited: the fuel budget of `dfs`. -/
def unvisitedKeys (g : List (Nat × List Nat)) (visited : List Nat) : Nat :=
  ((g.map Prod.fst).filter (fun k => decide (k ∉ visited))).length

theorem filter_len_mono {l : List Nat} {p q : Nat → Bool}
    (h : ∀ x, p x = true → q x = true) :
    (l.filter p).length ≤ (l.filter q).length := by
  induction l with
  | nil => simp
  | cons a t ih =>
    by_cases hp : p a = true
    · rw [List.filter_cons_of_pos hp, List.filter_cons_of_pos (h a hp)]
      simpa using ih
    · rw [List.filter_cons_of_neg (by simpa using hp)]
      by_cases hq : q a = true
      · rw [List.filter_cons_of_pos hq]
        exact le_trans ih (Nat.le_succ _)
      · rw [List.filter_cons_of_neg (by simpa using hq)]
        exact ih

theorem unvisitedKeys_mono (g : List (Nat × List Nat)) {v w : List Nat}
    (h : v ⊆ w) : unvisitedKeys g w ≤ unvisitedKeys g v := by
  refine filter_len_mono fun x hx => ?_
  simp only [decide_eq_true_eq] at hx ⊢
  exact fun hv => hx (h hv)

theorem unvisitedKeys_le_len (g : List (Nat × List Nat)) (v : List Nat) :
    unvisitedKeys g v ≤ g.length := by
  calc ((g.map Prod.fst).filter _).length ≤ (g.map Prod.fst).length :=
        List.length_filter_le _ _
    _ = g.length := List.length_map _ _

theorem filter_cons_visited_lt (l : List Nat) (v : List Nat) (k : Nat)
    (hk : k ∈ l) (hv : k ∉ v) :
    (l.filter (fun a => decide (a ∉ (k :: v)))).length <
      (l.filter (fun a => decide (a ∉ v))).length := by
  induction l with
  | nil => cases hk
  | cons a t ih =>
    by_cases ha : a = k
    · subst ha
      rw [List.filter_cons_of_neg (by simp), List.filter_cons_of_pos (by simpa using hv)]
      refine Nat.lt_succ_of_le (filter_len_mono fun x hx => ?_)
      simp only [decide_eq_true_eq, List.mem_cons, not_or] at hx ⊢
      exact hx.2
    · have hkt : k ∈ t := by
        rcases List.mem_cons.mp hk with h1 | h1
        · exact absurd h1.symm ha
        · exact h1
      by_cases hav : a ∈ v
      · rw [List.filter_cons_of_neg (by simp [hav]),
          List.filter_cons_of_neg (by simp [hav])]
        exact ih hkt
      · rw [List.filter_cons_of_pos (by simp [hav, ha]),
          List.filter_cons_of_pos (by simpa using hav)]
        exact Nat.succ_lt_succ (ih hkt)

theorem unvisitedKeys_cons_lt {g : List (Nat × List Nat)} {v : List Nat} {k : Nat}
    (hk : k ∈ g.map Prod.fst) (hv : k ∉ v) :
    unvisitedKeys g (k :: v) < unvisitedKeys g v :=
  filter_cons_visited_lt _ v k hk hv

/-- The DFS state invariant: a fully explored node that has left the
recursion stack does not reach a cycle; the stack only holds visited
nodes, without duplicates. -/
structure GoodS (g : List (Nat × List Nat)) (S : DfsS) : Prop where
  finished_safe : ∀ v ∈ S.visited, v ∉ S.recStack → ¬ ReachesCycle g v
  stack_vis : ∀ v ∈ S.recStack, v ∈ S.visited
  stack_nodup : S.recStack.Nodup

/-- Postcondition of one `dfs` call on a previously unvisited node. -/
structure DfsPost (g : List (Nat × List Nat)) (node : Nat) (S S' : DfsS)
    (b : Bool) : Prop where
  vis_mono : ∀ v ∈ S.visited, v ∈ S'.visited
  node_vis : node ∈ S'.visited
  dead_mono : ∀ v ∈ S.deadlocked, v ∈ S'.deadlocked
  stack_pres : ∀ v ∈ S.visited, (v ∈ S'.recStack ↔ v ∈ S.recStack)
  good : GoodS g S'
  stack_dead : ∀ v ∈ S'.recStack, v ∈ S.recStack ∨ v ∈ S'.deadlocked
  dead_of_true : b = true → node ∈ S'.deadlocked
  not_stack_of_false : b = false → node ∉ S'.recStack

/-- Postcondition of the neighbor loop (the node itself is already on the
stack; on a `false` return it is popped). -/
structure DfsNPost (g : List (Nat × List Nat)) (node : Nat) (S S' : DfsS)
    (b : Bool) : Prop where
  vis_mono : ∀ v ∈ S.visited, v ∈ S'.visited
  dead_mono : ∀ v ∈ S.deadlocked, v ∈ S'.deadlocked
  stack_pres : ∀ v ∈ S.visited, v ≠ node → (v ∈ S'.recStack ↔ v ∈ S.recStack)
  good : GoodS g S'
  stack_dead : ∀ v ∈ S'.recStack, v ∈ S.recStack ∨ v ∈ S'.deadlocked
  true_post : b = true → node ∈ S'.deadlocked ∧ (node ∈ S'.recStack ↔ node ∈ S.recStack)
  not_stack_of_false : b = false → node ∉ S'.recStack

theorem dfsNbrs_spec (g : List (Nat × List Nat)) (rec : Nat → DfsS → DfsS × Bool)
    (fuel : Nat)
    (hrec : ∀ x T, GoodS g T → x ∉ T.visited → unvisitedKeys g T.visited ≤ fuel →
      DfsPost g x T (rec x T).1 (rec x T).2) :
    ∀ (nbrs : List Nat) (node : Nat) (S : DfsS),
      GoodS g S → node ∈ S.visited → node ∈ S.recStack →
      unvisitedKeys g S.visited ≤ fuel →
      (∀ y, Edge g node y → y ∈ nbrs ∨ ¬ ReachesCycle g y) →
      DfsNPost g node S (dfsNbrs g rec node nbrs S).1 (dfsNbrs g rec node nbrs S).2 := by
  intro nbrs
  induction nbrs with
  | nil =>
    intro node S hG hnv hns hf hdone
    have hnR : ¬ ReachesCycle g node := by
      intro hr
      obtain ⟨y, hE, hy⟩ := reaches_step hr
      rcases hdone y hE with h | h
      · cases h
      · exact h hy
    simp only [dfsNbrs]
    refine ⟨fun v hv => hv, fun v hv => hv, ?_, ⟨?_, ?_, ?_⟩, ?_, ?_, ?_⟩
    · intro v hv hne
      exact List.mem_erase_of_ne hne
    · intro v hv hvs
      by_cases hvn : v = node
      · subst hvn; exact hnR
      · exact hG.finished_safe v hv fun hmem =>
          hvs ((List.mem_erase_of_ne hvn).mpr hmem)
    · intro v hv
      exact hG.stack_vis v ((List.erase_sublist node S.recStack).subset hv)
    · exact hG.stack_nodup.erase node
    · intro v hv
      exact Or.inl ((List.erase_sublist node S.recStack).subset hv)
    · intro h; cases h
    · intro h
      exact hG.stack_nodup.not_mem_erase
  | cons x rest ih =>
    intro node S hG hnv hns hf hdone
    simp only [dfsNbrs]
    by_cases hxv : x ∈ S.visited
    · rw [if_pos hxv]
      by_cases hxs : x ∈ S.recStack
      · rw [if_pos hxs]
        refine ⟨fun v hv => hv, fun v hv => List.mem_cons_of_mem _ hv, ?_,
          ⟨hG.finished_safe, hG.stack_vis, hG.stack_nodup⟩, ?_, ?_, ?_⟩
        · intro v hv hne; exact Iff.rfl
        · intro v hv; exact Or.inl hv
        · intro h
          exact ⟨List.mem_cons_self node _, Iff.rfl⟩
        · intro h; cases h
      · rw [if_neg hxs]
        refine ih node S hG hnv hns hf ?_
        intro y hE
        rcases hdone y hE with h | h
        · rcases List.mem_cons.mp h with rfl | h2
          · exact Or.inr (hG.finished_safe y hxv hxs)
          · exact Or.inl h2
        · exact Or.inr h
    · rw [if_neg hxv]
      have hpost := hrec x S hG hxv hf
      by_cases hb : (rec x S).2 = true
      · rw [if_pos hb]
        refine ⟨hpost.vis_mono, ?_, ?_, ?_, ?_, ?_, ?_⟩
        · intro v hv
          exact List.mem_cons_of_mem _ (hpost.dead_mono v hv)
        · intro v hv hne
          exact hpost.stack_pres v hv
        · exact ⟨hpost.good.finished_safe, hpost.good.stack_vis, hpost.good.stack_nodup⟩
        · intro v hv
          rcases hpost.stack_dead v hv with h | h
          · exact Or.inl h
          · exact Or.inr (List.mem_cons_of_mem _ h)
        · intro h
          exact ⟨List.mem_cons_self node _, hpost.stack_pres node hnv⟩
        · intro h; cases h
      · rw [if_neg hb]
        have hb' : (rec x S).2 = false := by
          cases hv2 : (rec x S).2
          · rfl
          · exact absurd hv2 hb
        have hsub : S.visited ⊆ (rec x S).1.visited := fun v hv => hpost.vis_mono v hv
        have hN := ih node (rec x S).1 hpost.good (hpost.vis_mono node hnv)
          ((hpost.stack_pres node hnv).mpr hns)
          (le_trans (unvisitedKeys_mono g hsub) hf) ?_
        · refine ⟨?_, ?_, ?_, hN.good, ?_, ?_, hN.not_stack_of_false⟩
          · intro v hv; exact hN.vis_mono v (hpost.vis_mono v hv)
          · intro v hv; exact hN.dead_mono v (hpost.dead_mono v hv)
          · intro v hv hne
            exact Iff.trans (hN.stack_pres v (hpost.vis_mono v hv) hne)
              (hpost.stack_pres v hv)
          · intro v hv
            rcases hN.stack_dead v hv with h | h
            · rcases hpost.stack_dead v h with h2 | h2
              · exact Or.inl h2
              · exact Or.inr (hN.dead_mono v h2)
            · exact Or.inr h
          · intro h
            obtain ⟨hd, hiff⟩ := hN.true_post h
            exact ⟨hd, Iff.trans hiff (hpost.stack_pres node hnv)⟩
        · intro y hE
          rcases hdone y hE with h | h
          · rcases List.mem_cons.mp h with rfl | h2
            · exact Or.inr (hpost.good.finished_safe y hpost.node_vis
                (hpost.not_stack_of_false hb'))
            · exact Or.inl h2
          · exact Or.inr h

theorem dfs_none_post (g : List (Nat × List Nat)) (node : Nat) (S : DfsS)
    (hG : GoodS g S) (hnv : node ∉ S.visited) (hlook : lookupA g node = none) :
    DfsPost g node S
      ⟨node :: S.visited, (node :: S.recStack).erase node, S.deadlocked⟩ false := by
  have he : (node :: S.recStack).erase node = S.recStack :=
    List.erase_cons_head node S.recStack
  refine ⟨fun v hv => List.mem_cons_of_mem _ hv, List.mem_cons_self _ _,
    fun v hv => hv, ?_, ⟨?_, ?_, ?_⟩, ?_, ?_, ?_⟩
  · intro v hv
    rw [he]
  · intro v hv hvs
    rw [he] at hvs
    rcases List.mem_cons.mp hv with rfl | h2
    · exact not_reaches_of_no_edge hlook
    · exact hG.finished_safe v h2 hvs
  · intro v hv
    rw [he] at hv
    exact List.mem_cons_of_mem _ (hG.stack_vis v hv)
  · rw [he]
    exact hG.stack_nodup
  · intro v hv
    rw [he] at hv
    exact Or.inl hv
  · intro h; cases h
  · intro h
    rw [he]
    exact fun hmem => hnv (hG.stack_vis node hmem)

theorem dfs_spec (g : List (Nat × List Nat)) :
    ∀ (fuel : Nat) (node : Nat) (S : DfsS),
      GoodS g S → node ∉ S.visited → unvisitedKeys g S.visited ≤ fuel →
      DfsPost g node S (dfs g fuel node S).1 (dfs g fuel node S).2 := by
  intro fuel
  induction fuel with
  | zero =>
    intro node S hG hnv hf
    simp only [dfs]
    cases hlook : lookupA g node with
    | none => exact dfs_none_post g node S hG hnv hlook
    | some nbrs =>
      exfalso
      have hlt := @unvisitedKeys_cons_lt g S.visited node (lookupA_mem_keys hlook) hnv
      omega
  | succ fuel ih =>
    intro node S hG hnv hf
    simp only [dfs]
    cases hlook : lookupA g node with
    | none => exact dfs_none_post g node S hG hnv hlook
    | some nbrs =>
      have hG1 : GoodS g ⟨node :: S.visited, node :: S.recStack, S.deadlocked⟩ := by
        refine ⟨?_, ?_, ?_⟩
        · intro v hv hvs
          rcases List.mem_cons.mp hv with rfl | h2
          · exact absurd (List.mem_cons_self v _) hvs
          · exact hG.finished_safe v h2 fun hmem => hvs (List.mem_cons_of_mem _ hmem)
        · intro v hv
          rcases List.mem_cons.mp hv with rfl | h2
          · exact List.mem_cons_self _ _
          · exact List.mem_cons_of_mem _ (hG.stack_vis v h2)
        · exact List.Nodup.cons (fun hmem => hnv (hG.stack_vis node hmem)) hG.stack_nodup
      have hf1 : unvisitedKeys g (node :: S.visited) ≤ fuel := by
        have hlt := @unvisitedKeys_cons_lt g S.visited node (lookupA_mem_keys hlook) hnv
        omega
      have hdone : ∀ y, Edge g node y → y ∈ nbrs ∨ ¬ ReachesCycle g y := by
        intro y hE
        obtain ⟨l, hl, hyl⟩ := hE
        rw [hlook] at hl
        cases hl
        exact Or.inl hyl
      have hN := dfsNbrs_spec g (fun x T => dfs g fuel x T) fuel
        (fun x T hGT hxT hfT => ih x T hGT hxT hfT) nbrs node
        ⟨node :: S.visited, node :: S.recStack, S.deadlocked⟩
        hG1 (List.mem_cons_self _ _) (List.mem_cons_self _ _) hf1 hdone
      refine ⟨?_, ?_, ?_, ?_, hN.good, ?_, ?_, hN.not_stack_of_false⟩
      · intro v hv
        exact hN.vis_mono v (List.mem_cons_of_mem _ hv)
      · exact hN.vis_mono node (List.mem_cons_self _ _)
      · exact hN.dead_mono
      · intro v hv
        have hne : v ≠ node := fun e => hnv (e ▸ hv)
        have h1 := hN.stack_pres v (List.mem_cons_of_mem _ hv) hne
        refine Iff.trans h1 ?_
        simp [List.mem_cons, hne]
      · intro v hv
        rcases hN.stack_dead v hv with h | h
        · rcases List.mem_cons.mp h with heq | h2
          · cases hb : (dfsNbrs g (fun x T => dfs g fuel x T) node nbrs
                ⟨node :: S.visited, node :: S.recStack, S.deadlocked⟩).2
            · exact absurd hv (heq ▸ hN.not_stack_of_false hb)
            · exact Or.inr (heq ▸ (hN.true_post hb).1)
          · exact Or.inl h2
        · exact Or.inr h
      · intro h
        exact (hN.true_post h).1

/-- The `for node in graph: if node not in visited: dfs(node)` main loop. -/
def rootsFold (g l : List (Nat × List Nat)) (S : DfsS) : DfsS :=
  l.foldl (fun S pr =>
    if pr.1 ∈ S.visited then S else (dfs g (g.length + 1) pr.1 S).1) S

theorem rootsFold_spec (g : List (Nat × List Nat)) :
    ∀ (l : List (Nat × List Nat)) (S : DfsS),
      GoodS g S → (∀ v ∈ S.recStack, v ∈ S.deadlocked) →
      GoodS g (rootsFold g l S) ∧
      (∀ v ∈ (rootsFold g l S).recStack, v ∈ (rootsFold g l S).deadlocked) ∧
      (∀ v ∈ S.visited, v ∈ (rootsFold g l S).visited) ∧
      (∀ v ∈ S.deadlocked, v ∈ (rootsFold g l S).deadlocked) ∧
      (∀ pr ∈ l, ReachesCycle g pr.1 → pr.1 ∈ (rootsFold g l S).deadlocked) := by
  intro l
  induction l with
  | nil =>
    intro S hG hsd
    refine ⟨hG, hsd, fun v hv => hv, fun v hv => hv, ?_⟩
    intro pr hpr
    cases hpr
  | cons pr t ih =>
    intro S hG hsd
    simp only [rootsFold, List.foldl_cons]
    by_cases hv : pr.1 ∈ S.visited
    · rw [if_pos hv]
      obtain ⟨hG', hsd', hvm, hdm, hall⟩ := ih S hG hsd
      refine ⟨hG', hsd', hvm, hdm, ?_⟩
      intro q hq hR
      rcases List.mem_cons.mp hq with heq | hq2
      · rw [heq] at hR ⊢
        by_cases hs : pr.1 ∈ S.recStack
        · exact hdm _ (hsd _ hs)
        · exact absurd hR (hG.finished_safe _ hv hs)
      · exact hall q hq2 hR
    · rw [if_neg hv]
      have hpost := dfs_spec g (g.length + 1) pr.1 S hG hv
        (le_trans (unvisitedKeys_le_len g S.visited) (Nat.le_succ _))
      have hG1 : GoodS g (dfs g (g.length + 1) pr.1 S).1 := hpost.good
      have hsd1 : ∀ v ∈ (dfs g (g.length + 1) pr.1 S).1.recStack,
          v ∈ (dfs g (g.length + 1) pr.1 S).1.deadlocked := by
        intro v hvs
        rcases hpost.stack_dead v hvs with h | h
        · exact hpost.dead_mono _ (hsd _ h)
        · exact h
      obtain ⟨hG', hsd', hvm, hdm, hall⟩ := ih _ hG1 hsd1
      refine ⟨hG', hsd', ?_, ?_, ?_⟩
      · intro v hvv
        exact hvm v (hpost.vis_mono v hvv)
      · intro v hvd
        exact hdm v (hpost.dead_mono v hvd)
      · intro q hq hR
        rcases List.mem_cons.mp hq with heq | hq2
        · rw [heq] at hR ⊢
          cases hb : (dfs g (g.length + 1) pr.1 S).2
          · have h1 := hpost.not_stack_of_false hb
            have h2 := hpost.good.finished_safe pr.1 hpost.node_vis h1
            exact absurd hR h2
          · exact hdm _ (hpost.dead_of_true hb)
        · exact hall q hq2 hR

theorem find_cycles_complete (g : List (Nat × List Nat)) (n : Nat)
    (h : ReachesCycle g n) : n ∈ find_cycles g := by
  have hfc : find_cycles g = (rootsFold g g ⟨[], [], []⟩).deadlocked := rfl
  have hG0 : GoodS g ⟨[], [], []⟩ := by
    refine ⟨?_, ?_, List.nodup_nil⟩
    · intro v hv
      cases hv
    · intro v hv
      cases hv
  obtain ⟨-, -, -, -, hall⟩ := rootsFold_spec g g ⟨[], [], []⟩ hG0
    (by intro v hv; cases hv)
  obtain ⟨y, ⟨l, hl, -⟩, -⟩ := reaches_step h
  have hk : n ∈ g.map Prod.fst := lookupA_mem_keys hl
  obtain ⟨pr, hpr, hpr1⟩ := List.mem_map.mp hk
  rw [hfc]
  have hres := hall pr hpr (by rw [hpr1]; exact h)
  rw [hpr1] at hres
  exact hres

/-- C1: for every state, `detect()` reports as deadlocked every process
whose wait chain transitively reaches a cycle of the wait-for graph, not
only the processes strictly inside the cycle.  This holds regardless of
creation/traversal order because the source never removes a node from
`rec_stack` on the `return True` paths, so every node marked deadlocked
stays on the stack and later chains into it are caught by the
`neighbor in rec_stack` test. -/
theorem detect_reports_wait_chain (s : Sim) (n : Nat)
    (h : ReachesCycle (waitForGraph s) n) :
    n ∈ (detect_deadlock s).deadlocked_processes.map Prod.fst := by
  have hmem := find_cycles_complete (waitForGraph s) n h
  simp only [detect_deadlock, List.map_map, List.mem_map]
  exact ⟨n, hmem, rfl⟩

/-- C1 witness: in the concrete scenario P3 (id 4, created last) waits on
P1 (id 0) which is in a mutual cycle with P2 (id 1); P3's wait chain
reaches the cycle and P3 is reported deadlocked even though the DFS fully
explores the cycle before reaching P3. -/
theorem detect_reports_wait_chain_witness :
    ReachesCycle (waitForGraph (run chainOps)) 4 ∧
    4 ∈ (detect_deadlock (run chainOps)).deadlocked_processes.map Prod.fst := by
  have e40 : Edge (waitForGraph (run chainOps)) 4 0 := ⟨[0], by decide, by decide⟩
  have e01 : Edge (waitForGraph (run chainOps)) 0 1 := ⟨[1], by decide, by decide⟩
  have e10 : Edge (waitForGraph (run chainOps)) 1 0 := ⟨[0], by decide, by decide⟩
  have hr : ReachesCycle (waitForGraph (run chainOps)) 4 :=
    ⟨0, Relation.ReflTransGen.single e40,
      Relation.TransGen.head e01 (Relation.TransGen.single e10)⟩
  exact ⟨hr, detect_reports_wait_chain (run chainOps) 4 hr⟩

/-! ## Capacity invariant machinery (for C9) -/

theorem lookupA_mem {α : Type} {l : List (Nat × α)} {k : Nat} {v : α}
    (h : lookupA l k = some v) : (k, v) ∈ l := by
  induction l with
  | nil => cases h
  | cons hd t ih =>
    obtain ⟨k0, v0⟩ := hd
    by_cases hk : k0 = k
    · subst hk
      rw [lookupA, if_pos rfl] at h
      cases h
      exact List.mem_cons_self _ _
    · rw [lookupA, if_neg hk] at h
      exact List.mem_cons_of_mem _ (ih h)

theorem lookupA_of_mem_nodup {α : Type} {l : List (Nat × α)} {k : Nat} {v : α}
    (hmem : (k, v) ∈ l) (hnd : (l.map Prod.fst).Nodup) : lookupA l k = some v := by
  induction l with
  | nil => cases hmem
  | cons hd t ih =>
    obtain ⟨k0, v0⟩ := hd
    simp only [List.map, List.nodup_cons] at hnd
    rcases List.mem_cons.mp hmem with heq | hmem2
    · cases heq
      rw [lookupA, if_pos rfl]
    · have hk : k0 ≠ k := by
        intro he
        subst he
        exact hnd.1 (List.mem_map.mpr ⟨(k0, v), hmem2, rfl⟩)
      rw [lookupA, if_neg hk]
      exact ih hmem2 hnd.2
      
theorem mem_setA {α : Type} {l : List (Nat × α)} {k : Nat} {v : α} {e : Nat × α}
    (h : e ∈ setA l k v) : e ∈ l ∨ e = (k, v) := by
  induction l with
  | nil =>
    simp only [setA, List.mem_singleton] at h
    exact Or.inr h
  | cons hd t ih =>
    obtain ⟨k0, v0⟩ := hd
    by_cases hk : k0 = k
    · simp only [setA, if_pos hk, List.mem_cons] at h
      rcases h with h | h
      · refine Or.inr ?_
        rw [h, hk]
      · exact Or.inl (List.mem_cons_of_mem _ h)
    · simp only [setA, if_neg hk, List.mem_cons] at h
      rcases h with h | h
      · exact Or.inl (h ▸ List.mem_cons_self _ _)
      · rcases ih h with h2 | h2
        · exact Or.inl (List.mem_cons_of_mem _ h2)
        · exact Or.inr h2

theorem eraseA_sublist {α : Type} (l : List (Nat × α)) (k : Nat) :
    (eraseA l k).Sublist l := by
  induction l with
  | nil => simp [eraseA]
  | cons hd t ih =>
    obtain ⟨k0, v0⟩ := hd
    by_cases hk : k0 = k
    · simp only [eraseA, if_pos hk]
      exact List.sublist_cons_self _ _
    · simp only [eraseA, if_neg hk]
      exact List.Sublist.cons₂ _ ih

theorem sumVals_setA_absent {l : List (Nat × Int)} {k : Nat} (v : Int)
    (h : lookupA l k = none) : sumVals (setA l k v) = sumVals l + v := by
  induction l with
  | nil => simp [setA, sumVals]
  | cons hd t ih =>
    obtain ⟨k0, v0⟩ := hd
    by_cases hk : k0 = k
    · rw [lookupA, if_pos hk] at h
      cases h
    · rw [lookupA, if_neg hk] at h
      simp only [setA, if_neg hk, sumVals, ih h]
      ring

theorem sumVals_setA_present {l : List (Nat × Int)} {k : Nat} {old : Int} (v : Int)
    (hnd : (l.map Prod.fst).Nodup) (h : lookupA l k = some old) :
    sumVals (setA l k v) = sumVals l - old + v := by
  induction l with
  | nil => cases h
  | cons hd t ih =>
    obtain ⟨k0, v0⟩ := hd
    simp only [List.map, List.nodup_cons] at hnd
    by_cases hk : k0 = k
    · rw [lookupA, if_pos hk] at h
      cases h
      simp only [setA, if_pos hk, sumVals]
      ring
    · rw [lookupA, if_neg hk] at h
      simp only [setA, if_neg hk, sumVals, ih hnd.2 h]
      ring

theorem sumVals_addEntry {l : List (Nat × Int)} {k : Nat} (v : Int)
    (hnd : (l.map Prod.fst).Nodup) : sumVals (addEntry l k v) = sumVals l + v := by
  rw [addEntry]
  cases h : lookupA l k with
  | none => exact sumVals_setA_absent v h
  | some old =>
    rw [sumVals_setA_present (old + v) hnd h]
    ring

def EntriesNonneg (l : List (Nat × Int)) : Prop := ∀ e ∈ l, 0 ≤ e.2

theorem sumVals_eraseA_le {l : List (Nat × Int)} (k : Nat) (h : EntriesNonneg l) :
    sumVals (eraseA l k) ≤ sumVals l := by
  induction l with
  | nil => simp [eraseA]
  | cons hd t ih =>
    obtain ⟨k0, v0⟩ := hd
    have hv0 : 0 ≤ v0 := h (k0, v0) (List.mem_cons_self _ _)
    have ht : EntriesNonneg t := fun e he => h e (List.mem_cons_of_mem _ he)
    by_cases hk : k0 = k
    · simp only [eraseA, if_pos hk, sumVals]
      omega
    · simp only [eraseA, if_neg hk, sumVals]
      have := ih ht
      omega

theorem EntriesNonneg_setA {l : List (Nat × Int)} {k : Nat} {v : Int}
    (h : EntriesNonneg l) (hv : 0 ≤ v) : EntriesNonneg (setA l k v) := by
  intro e he
  rcases mem_setA he with h2 | h2
  · exact h e h2
  · rw [h2]
    exact hv

theorem EntriesNonneg_eraseA {l : List (Nat × Int)} {k : Nat}
    (h : EntriesNonneg l) : EntriesNonneg (eraseA l k) :=
  fun e he => h e ((eraseA_sublist l k).subset he)

theorem EntriesNonneg_addEntry {l : List (Nat × Int)} {k : Nat} {v : Int}
    (h : EntriesNonneg l) (hv : 0 ≤ v) : EntriesNonneg (addEntry l k v) := by
  rw [addEntry]
  cases hx : lookupA l k with
  | none => exact EntriesNonneg_setA h hv
  | some old =>
    have hold : 0 ≤ old := h (k, old) (lookupA_mem hx)
    exact EntriesNonneg_setA h (by omega)

theorem nodup_keys_eraseA {α : Type} {l : List (Nat × α)} {k : Nat}
    (h : (l.map Prod.fst).Nodup) : ((eraseA l k).map Prod.fst).Nodup :=
  ((eraseA_sublist l k).map Prod.fst).nodup h

theorem nodup_keys_addEntry {l : List (Nat × Int)} {k : Nat} {v : Int}
    (h : (l.map Prod.fst).Nodup) : ((addEntry l k v).map Prod.fst).Nodup := by
  rw [addEntry]
  cases lookupA l k with
  | none => exact nodup_keys_setA _ _ _ h
  | some old => exact nodup_keys_setA _ _ _ h

/-- Per-resource part of the capacity invariant. -/
structure ResOk (r : Resource) : Prop where
  cap : sumVals r.allocated ≤ r.units
  alloc_nonneg : EntriesNonneg r.allocated
  req_nonneg : EntriesNonneg r.requested
  alloc_nodup : (r.allocated.map Prod.fst).Nodup
  req_nodup : (r.requested.map Prod.fst).Nodup

/-- Whole-state part of the capacity invariant: every resource is within
capacity, resource ids are unique, and all live below the id counter. -/
structure SimOk (s : Sim) : Prop where
  res_ok : ∀ pr ∈ s.resources, ResOk pr.2
  keys_nodup : (s.resources.map Prod.fst).Nodup
  keys_lt : ∀ k ∈ s.resources.map Prod.fst, k < s.nextId

/-- Argument validity for one engine call: all unit arguments nonnegative
(Python `int` admits negative values, which the engine never rejects). -/
def opOk : Op → Bool
  | Op.createProcess _ => true
  | Op.createResource _ u => decide (0 ≤ u)
  | Op.request _ _ u => decide (0 ≤ u)
  | Op.release _ _ none => true
  | Op.release _ _ (some u) => decide (0 ≤ u)
  | Op.detect => true
  | Op.reset => true

theorem keys_updateA {α : Type} (l : List (Nat × α)) (k : Nat) (f : α → α) :
    (updateA l k f).map Prod.fst = l.map Prod.fst := by
  induction l with
  | nil => rfl
  | cons hd t ih =>
    obtain ⟨k0, v0⟩ := hd
    rw [updateA_cons]
    by_cases hk : k0 = k
    · rw [if_pos hk]
      simp only [List.map]
      rw [ih]
    · rw [if_neg hk]
      simp only [List.map]
      rw [ih]

theorem SimOk_of_updateRes {s s' : Sim} {rid : Nat} {f : Resource → Resource}
    (hres : s'.resources = updateA s.resources rid f) (hnid : s'.nextId = s.nextId)
    (hs : SimOk s)
    (hf : ∀ res, lookupA s.resources rid = some res → ResOk res → ResOk (f res)) :
    SimOk s' := by
  refine ⟨?_, ?_, ?_⟩
  · intro pr hpr
    rw [hres] at hpr
    simp only [updateA, List.mem_map] at hpr
    obtain ⟨q, hq, hqe⟩ := hpr
    by_cases hk : q.1 = rid
    · rw [if_pos hk] at hqe
      have hmem : (q.1, q.2) ∈ s.resources := by
        rw [Prod.mk.eta]
        exact hq
      have hlook : lookupA s.resources rid = some q.2 := by
        rw [← hk]
        exact lookupA_of_mem_nodup hmem hs.keys_nodup
      have hres2 := hf q.2 hlook (hs.res_ok q hq)
      rw [← hqe]
      exact hres2
    · rw [if_neg hk] at hqe
      rw [← hqe]
      exact hs.res_ok q hq
  · rw [hres, keys_updateA]
    exact hs.keys_nodup
  · rw [hres, keys_updateA, hnid]
    exact hs.keys_lt

theorem SimOk_of_same {s s' : Sim} (hres : s'.resources = s.resources)
    (hnid : s'.nextId = s.nextId) (hs : SimOk s) : SimOk s' := by
  refine ⟨?_, ?_, ?_⟩
  · rw [hres]
    exact hs.res_ok
  · rw [hres]
    exact hs.keys_nodup
  · rw [hres, hnid]
    exact hs.keys_lt

theorem ResOk_setRequested {res : Resource} {pid : Nat} {u : Int}
    (h : ResOk res) (hu : 0 ≤ u) :
    ResOk { res with requested := setA res.requested pid u } :=
  ⟨h.cap, h.alloc_nonneg, EntriesNonneg_setA h.req_nonneg hu, h.alloc_nodup,
    nodup_keys_setA _ _ _ h.req_nodup⟩

theorem ResOk_eraseRequested {res : Resource} {pid : Nat} (h : ResOk res) :
    ResOk { res with requested := eraseA res.requested pid } :=
  ⟨h.cap, h.alloc_nonneg, EntriesNonneg_eraseA h.req_nonneg, h.alloc_nodup,
    nodup_keys_eraseA h.req_nodup⟩

theorem ResOk_addAlloc {res : Resource} {pid : Nat} {u : Int} (h : ResOk res)
    (hu : 0 ≤ u) (hcap : sumVals res.allocated + u ≤ res.units) :
    ResOk { res with allocated := addEntry res.allocated pid u } := by
  refine ⟨?_, EntriesNonneg_addEntry h.alloc_nonneg hu, h.req_nonneg,
    nodup_keys_addEntry h.alloc_nodup, h.req_nodup⟩
  rw [sumVals_addEntry u h.alloc_nodup]
  exact hcap

theorem ResOk_eraseAlloc {res : Resource} {pid : Nat} (h : ResOk res) :
    ResOk { res with allocated := eraseA res.allocated pid } :=
  ⟨le_trans (sumVals_eraseA_le pid h.alloc_nonneg) h.cap,
    EntriesNonneg_eraseA h.alloc_nonneg, h.req_nonneg,
    nodup_keys_eraseA h.alloc_nodup, h.req_nodup⟩

theorem ResOk_decAlloc {res : Resource} {pid : Nat} {held u : Int} (h : ResOk res)
    (hheld : lookupA res.allocated pid = some held) (hu : 0 ≤ u) (hule : u ≤ held) :
    ResOk { res with allocated := setA res.allocated pid (held - u) } := by
  refine ⟨?_, EntriesNonneg_setA h.alloc_nonneg (by omega), h.req_nonneg,
    nodup_keys_setA _ _ _ h.alloc_nodup, h.req_nodup⟩
  rw [sumVals_setA_present _ h.alloc_nodup hheld]
  have hc := h.cap
  simp only []
  omega

theorem SimOk_recordRequest {s : Sim} {pid rid : Nat} {u : Int}
    (hs : SimOk s) (hu : 0 ≤ u) : SimOk (recordRequest s pid rid u) :=
  @SimOk_of_updateRes s (recordRequest s pid rid u) rid
    (fun r => { r with requested := setA r.requested pid u }) rfl rfl hs
    (fun _ _ hok => ResOk_setRequested hok hu)

theorem SimOk_clearRequest {s : Sim} {pid rid : Nat} (hs : SimOk s) :
    SimOk (clearRequest s pid rid) :=
  @SimOk_of_updateRes s (clearRequest s pid rid) rid
    (fun r => { r with requested := eraseA r.requested pid }) rfl rfl hs
    (fun _ _ hok => ResOk_eraseRequested hok)

theorem SimOk_setStatus {s : Sim} {pid : Nat} {st : String} (hs : SimOk s) :
    SimOk (setStatus s pid st) :=
  @SimOk_of_same s (setStatus s pid st) rfl rfl hs

theorem SimOk_grantAlloc {s : Sim} {pid rid : Nat} {u : Int} (hs : SimOk s)
    (hu : 0 ≤ u)
    (hcap : ∀ res, lookupA s.resources rid = some res →
      sumVals res.allocated + u ≤ res.units) :
    SimOk (grantAlloc s pid rid u) :=
  @SimOk_of_updateRes s (grantAlloc s pid rid u) rid
    (fun r => { r with allocated := addEntry r.allocated pid u }) rfl rfl hs
    (fun res hres hok => ResOk_addAlloc hok hu (hcap res hres))

theorem SimOk_dropAlloc {s : Sim} {pid rid : Nat} (hs : SimOk s) :
    SimOk (dropAlloc s pid rid) :=
  @SimOk_of_updateRes s (dropAlloc s pid rid) rid
    (fun r => { r with allocated := eraseA r.allocated pid }) rfl rfl hs
    (fun _ _ hok => ResOk_eraseAlloc hok)

theorem SimOk_decAlloc {s : Sim} {pid rid : Nat} {held u : Int} (hs : SimOk s)
    (hu : 0 ≤ u) (hule : u ≤ held)
    (hheld : ∀ res, lookupA s.resources rid = some res →
      lookupA res.allocated pid = some held) :
    SimOk (decAlloc s pid rid held u) :=
  @SimOk_of_updateRes s (decAlloc s pid rid held u) rid
    (fun r => { r with allocated := setA r.allocated pid (held - u) }) rfl rfl hs
    (fun res hres hok => ResOk_decAlloc hok (hheld res hres) hu hule)

/-- Remaining capacity bookkeeping for the scan: granting `avail` more
units to the resource would still fit. -/
def CapAt (s : Sim) (rid : Nat) (avail : Int) : Prop :=
  ∀ res, lookupA s.resources rid = some res →
    sumVals res.allocated + avail ≤ res.units

theorem CapAt_scanGrant {s : Sim} {rid pid : Nat} {req avail : Int}
    (hs : SimOk s) (hcap : CapAt s rid avail) :
    CapAt (scanGrant rid pid req s) rid (avail - req) := by
  intro res hres
  have hchain : (scanGrant rid pid req s).resources =
      updateA s.resources rid
        (fun r => { r with allocated := addEntry r.allocated pid req }) := rfl
  rw [hchain, lookupA_updateA_self] at hres
  cases hx : lookupA s.resources rid with
  | none =>
    rw [hx] at hres
    cases hres
  | some res0 =>
    rw [hx] at hres
    simp only [Option.map_some', Option.some.injEq] at hres
    have hok : ResOk res0 := hs.res_ok (rid, res0) (lookupA_mem hx)
    have hc := hcap res0 hx
    rw [← hres]
    simp only []
    rw [sumVals_addEntry req hok.alloc_nodup]
    omega

theorem scanLoop_SimOk {rid : Nat} :
    ∀ (pending : List (Nat × Int)) (s : Sim) (avail : Int) (sat : List Nat),
      SimOk s → CapAt s rid avail → EntriesNonneg pending →
      SimOk (scanLoop rid s pending avail sat).1 := by
  intro pending
  induction pending with
  | nil =>
    intro s avail sat hs _ _
    simpa [scanLoop] using hs
  | cons hd rest ih =>
    obtain ⟨pid, req⟩ := hd
    intro s avail sat hs hcap hnn
    have hreq0 : 0 ≤ req := hnn (pid, req) (List.mem_cons_self _ _)
    have hrest : EntriesNonneg rest := fun e he => hnn e (List.mem_cons_of_mem _ he)
    simp only [scanLoop]
    by_cases hle : req ≤ avail
    · rw [if_pos hle]
      have hs1 : SimOk (scanGrant rid pid req s) := by
        rw [scanGrant]
        refine SimOk_setStatus (SimOk_grantAlloc hs hreq0 ?_)
        intro res hres
        have := hcap res hres
        omega
      by_cases hz : avail - req = 0
      · rw [if_pos hz]
        exact hs1
      · rw [if_neg hz]
        exact ih _ _ _ hs1 (CapAt_scanGrant hs hcap) hrest
    · rw [if_neg hle]
      exact ih _ _ _ hs hcap hrest

theorem foldl_clearRequest_SimOk {rid : Nat} :
    ∀ (sat : List Nat) (s : Sim), SimOk s →
      SimOk (sat.foldl (removeSatisfied rid) s) := by
  intro sat
  induction sat with
  | nil =>
    intro s hs
    exact hs
  | cons p t ih =>
    intro s hs
    rw [List.foldl_cons]
    exact ih _ (SimOk_clearRequest hs)

theorem try_satisfy_SimOk {s : Sim} {rid : Nat} (hs : SimOk s) :
    SimOk (try_satisfy_waiting_requests s rid) := by
  rw [try_satisfy_waiting_requests]
  cases hx : lookupA s.resources rid with
  | none => exact hs
  | some res =>
    simp only []
    by_cases hz : res.units - sumVals res.allocated = 0
    · rw [if_pos hz]
      exact hs
    · rw [if_neg hz]
      have hok : ResOk res := hs.res_ok (rid, res) (lookupA_mem hx)
      refine foldl_clearRequest_SimOk _ _ (scanLoop_SimOk _ _ _ _ hs ?_ hok.req_nonneg)
      intro res' hres'
      rw [hx] at hres'
      cases hres'
      omega

theorem request_SimOk {s s' : Sim} {pid rid : Nat} {u : Int} {b : Bool}
    (hs : SimOk s) (hu : 0 ≤ u)
    (h : request_resource s pid rid u = some (s', b)) : SimOk s' := by
  cases hp : lookupA s.processes pid with
  | none =>
    rw [request_resource, hp] at h
    cases h
  | some proc =>
    cases hr : lookupA s.resources rid with
    | none =>
      rw [request_resource, hp, hr] at h
      cases h
    | some res =>
      rw [request_resource, hp, hr] at h
      simp only [] at h
      by_cases hle : u ≤ res.units - sumVals res.allocated
      · rw [if_pos hle] at h
        simp only [Option.some.injEq, Prod.mk.injEq] at h
        obtain ⟨hs', -⟩ := h
        rw [← hs']
        refine SimOk_clearRequest (SimOk_grantAlloc (SimOk_recordRequest hs hu) hu ?_)
        intro res' hres'
        have hchain : (recordRequest s pid rid u).resources =
            updateA s.resources rid
              (fun r => { r with requested := setA r.requested pid u }) := rfl
        rw [hchain, lookupA_updateA_self, hr] at hres'
        simp only [Option.map_some', Option.some.injEq] at hres'
        rw [← hres']
        simp only []
        omega
      · rw [if_neg hle] at h
        simp only [Option.some.injEq, Prod.mk.injEq] at h
        obtain ⟨hs', -⟩ := h
        rw [← hs']
        exact SimOk_setStatus (SimOk_recordRequest hs hu)

theorem release_SimOk {s s' : Sim} {pid rid : Nat} {ou : Option Int} {b : Bool}
    (hs : SimOk s) (hu : ∀ u, ou = some u → 0 ≤ u)
    (h : release_resource s pid rid ou = some (s', b)) : SimOk s' := by
  cases hp : lookupA s.processes pid with
  | none =>
    rw [release_resource, hp] at h
    cases h
  | some proc =>
    cases hr : lookupA s.resources rid with
    | none =>
      rw [release_resource, hp, hr] at h
      cases h
    | some res =>
      rw [release_resource, hp, hr] at h
      simp only [] at h
      cases hal : lookupA res.allocated pid with
      | none =>
        rw [hal] at h
        simp only [Option.some.injEq, Prod.mk.injEq] at h
        obtain ⟨hs', -⟩ := h
        rw [← hs']
        exact hs
      | some held =>
        rw [hal] at h
        simp only [Option.some.injEq, Prod.mk.injEq] at h
        obtain ⟨hs', -⟩ := h
        rw [← hs']
        have hheld : ∀ res', lookupA s.resources rid = some res' →
            lookupA res'.allocated pid = some held := by
          intro res' hres'
          rw [hr] at hres'
          cases hres'
          exact hal
        cases ou with
        | none => exact try_satisfy_SimOk (SimOk_dropAlloc hs)
        | some u =>
          simp only []
          by_cases hcmp : held ≤ u
          · rw [if_pos hcmp]
            exact try_satisfy_SimOk (SimOk_dropAlloc hs)
          · rw [if_neg hcmp]
            refine try_satisfy_SimOk (SimOk_decAlloc hs (hu u rfl) ?_ hheld)
            omega

theorem initSim_SimOk : SimOk initSim := by
  refine ⟨?_, ?_, ?_⟩
  · intro pr hpr
    cases hpr
  · exact List.nodup_nil
  · intro k hk
    cases hk

theorem step_SimOk {s : Sim} {op : Op} (hs : SimOk s) (hok : opOk op = true) :
    SimOk (step s op) := by
  cases op with
  | createProcess n =>
    refine ⟨hs.res_ok, hs.keys_nodup, ?_⟩
    intro k hk
    exact lt_trans (hs.keys_lt k hk) (Nat.lt_succ_self _)
  | createResource n u =>
    have hu : 0 ≤ u := by
      simpa [opOk] using hok
    show SimOk
      { s with
        resources := s.resources ++ [(s.nextId, ⟨n, u, [], []⟩)],
        nextId := s.nextId + 1 }
    refine ⟨?_, ?_, ?_⟩
    · intro pr hpr
      rcases List.mem_append.mp hpr with h1 | h1
      · exact hs.res_ok pr h1
      · rw [List.mem_singleton.mp h1]
        exact ⟨by simpa [sumVals] using hu, fun e he => (by cases he),
          fun e he => (by cases he), List.nodup_nil, List.nodup_nil⟩
    · simp only [List.map_append]
      refine (List.nodup_append).mpr ⟨hs.keys_nodup, List.nodup_singleton _, ?_⟩
      intro a ha hb
      rw [List.mem_singleton.mp hb] at ha
      exact absurd (hs.keys_lt _ ha) (lt_irrefl _)
    · intro k hk
      simp only [List.map_append] at hk
      rcases List.mem_append.mp hk with h1 | h1
      · exact lt_trans (hs.keys_lt k h1) (Nat.lt_succ_self _)
      · rw [List.mem_singleton.mp h1]
        exact Nat.lt_succ_self _
  | request p r u =>
    have hu : 0 ≤ u := by
      simpa [opOk] using hok
    simp only [step]
    cases hres : request_resource s p r u with
    | none => exact hs
    | some pr =>
      refine @request_SimOk s pr.1 p r u pr.2 hs hu ?_
      rw [hres]
  | release p r ou =>
    have hu : ∀ u, ou = some u → 0 ≤ u := by
      intro u he
      subst he
      simpa [opOk] using hok
    simp only [step]
    cases hres : release_resource s p r ou with
    | none => exact hs
    | some pr =>
      refine @release_SimOk s pr.1 p r ou pr.2 hs hu ?_
      rw [hres]
  | detect => exact hs
  | reset =>
    refine ⟨?_, List.nodup_nil, ?_⟩
    · intro pr hpr
      cases hpr
    · intro k hk
      cases hk

theorem run_SimOk (ops : List Op) (hok : ∀ op ∈ ops, opOk op = true) :
    SimOk (run ops) := by
  rw [run]
  have hgen : ∀ (l : List Op) (s : Sim), SimOk s → (∀ op ∈ l, opOk op = true) →
      SimOk (l.foldl step s) := by
    intro l
    induction l with
    | nil =>
      intro s hs _
      exact hs
    | cons op t ih =>
      intro s hs hok2
      rw [List.foldl_cons]
      exact ih _ (step_SimOk hs (hok2 op (List.mem_cons_self _ _)))
        (fun q hq => hok2 q (List.mem_cons_of_mem _ hq))
  exact hgen ops initSim initSim_SimOk hok

/-- C9 (counterexample): the capacity invariant fails for call sequences
with negative unit arguments, which the engine never rejects: a resource
created with `totalUnits = -1`; a partial release of `-3` units inflating a
holding to 4/1; and a granted request of `-5` units whose later full
release inflates another holding to 6/1. -/
theorem capacity_violated_by_negative_units_cex :
    ¬ (∀ pr ∈ (run [Op.createResource "R" (-1)]).resources,
        sumVals pr.2.allocated ≤ pr.2.units) ∧
    ¬ (∀ pr ∈ (run [Op.createResource "R" 1, Op.createProcess "P",
          Op.request 1 0 1, Op.release 1 0 (some (-3))]).resources,
        sumVals pr.2.allocated ≤ pr.2.units) ∧
    ¬ (∀ pr ∈ (run [Op.createResource "R" 1, Op.createProcess "P",
          Op.createProcess "Q", Op.request 1 0 (-5), Op.request 2 0 6,
          Op.release 1 0 none]).resources,
        sumVals pr.2.allocated ≤ pr.2.units) :=
  ⟨by decide, by decide, by decide⟩

/-- C9 (amended): for every sequence of engine calls whose unit arguments
are all nonnegative, every resource of the reached state satisfies
`sum(allocated.values()) <= totalUnits`. -/
theorem capacity_invariant_for_nonneg_traces (ops : List Op)
    (hok : ∀ op ∈ ops, opOk op = true) :
    ∀ pr ∈ (run ops).resources, sumVals pr.2.allocated ≤ pr.2.units :=
  fun pr hpr => ((run_SimOk ops hok).res_ok pr hpr).cap

/-- C9 witness. -/
theorem capacity_invariant_for_nonneg_traces_witness :
    (∀ op ∈ cycleOps, opOk op = true) ∧
    ∀ pr ∈ (run cycleOps).resources, sumVals pr.2.allocated ≤ pr.2.units :=
  ⟨by decide, capacity_invariant_for_nonneg_traces cycleOps (by decide)⟩
